import Mathlib

/-!
# Verification of the person-detector publishing pipeline

Shallow embedding of `src/detector.cpp`: the shared-memory record
(`DetectionData`), the per-frame detection filter, greedy non-maximum
suppression, the publish loop (modelled at the granularity of the
individual stores the C++ code performs), and the stream lifecycle
(init, per-frame publish, completion flag, shared-memory teardown).

Machine `float`/`double` values are modelled as exact rationals (`ℚ`);
the C `(int)` cast and C integer division truncate toward zero and are
modelled with `Int.tdiv`.  `int` counters are modelled as `ℤ`/`ℕ`
(no 32-bit wraparound is modelled).
-/

namespace Detector


/-- One entry of `DetectionData::boxes` (struct `BBox` in `detector.cpp`):
five `float` fields, modelled as rationals. -/
structure BBox where
  x : ℚ
  y : ℚ
  width : ℚ
  height : ℚ
  confidence : ℚ
deriving DecidableEq, Repr

instance : Inhabited BBox := ⟨⟨0, 0, 0, 0, 0⟩⟩

/-- The all-zero box entry, the state `memset(sharedData, 0, ...)` leaves
each array slot in. -/
def zeroBBox : BBox := ⟨0, 0, 0, 0, 0⟩

/-- The shared-memory record (struct `DetectionData` in `detector.cpp`):
`frame_number`, `num_detections`, a fixed array of 50 boxes (modelled as a
list whose length is kept at 50), and `processing_complete`. -/
structure DetectionData where
  frame_number : ℤ
  num_detections : ℤ
  boxes : List BBox
  processing_complete : Bool
deriving DecidableEq, Repr

/-- Capacity of the `boxes` array (`boxes[50]` in the source). -/
def CAPACITY : ℕ := 50

/-- The record state right after `memset(sharedData, 0, sizeof(DetectionData))`
and `sharedData->processing_complete = false` (lines 72–73). -/
def initState : DetectionData :=
  { frame_number := 0
    num_detections := 0
    boxes := List.replicate CAPACITY zeroBBox
    processing_complete := false }

/-- In-place update of one list element (the effect of `boxes[i].field = v`
on the array, at whole-entry granularity); out-of-range indices leave the
list unchanged, mirroring that the code only ever writes `i < 50`. -/
def modifyAt : List BBox → ℕ → (BBox → BBox) → List BBox
  | [], _, _ => []
  | b :: bs, 0, f => f b :: bs
  | b :: bs, n + 1, f => b :: modifyAt bs n f

/-- One primitive store into the shared record, at the granularity the C++
code performs them (lines 133–134, 139–143, 153): each field of each box
entry is a separate store, there is no atomicity beyond a single field. -/
inductive WriteEvent where
  | wFrame (v : ℤ)
  | wNum (v : ℤ)
  | wBoxX (i : ℕ) (v : ℚ)
  | wBoxY (i : ℕ) (v : ℚ)
  | wBoxW (i : ℕ) (v : ℚ)
  | wBoxH (i : ℕ) (v : ℚ)
  | wBoxC (i : ℕ) (v : ℚ)
  | wComplete (v : Bool)
deriving DecidableEq, Repr

/-- Effect of one store on the record. -/
def applyEvent (st : DetectionData) : WriteEvent → DetectionData
  | .wFrame v => { st with frame_number := v }
  | .wNum v => { st with num_detections := v }
  | .wBoxX i v => { st with boxes := modifyAt st.boxes i fun b => { b with x := v } }
  | .wBoxY i v => { st with boxes := modifyAt st.boxes i fun b => { b with y := v } }
  | .wBoxW i v => { st with boxes := modifyAt st.boxes i fun b => { b with width := v } }
  | .wBoxH i v => { st with boxes := modifyAt st.boxes i fun b => { b with height := v } }
  | .wBoxC i v => { st with boxes := modifyAt st.boxes i fun b => { b with confidence := v } }
  | .wComplete v => { st with processing_complete := v }

def applyEvents (st : DetectionData) (evs : List WriteEvent) : DetectionData :=
  evs.foldl applyEvent st

/-- The five stores of the loop body at lines 139–143, in source order. -/
def boxEvents (i : ℕ) (b : BBox) : List WriteEvent :=
  [.wBoxX i b.x, .wBoxY i b.y, .wBoxW i b.width, .wBoxH i b.height,
   .wBoxC i b.confidence]

/-- The stores issued while writing the detections `ds`, starting at array
index `i` (the `for` loop of lines 136–144 unrolled). -/
def boxWriteEvents : ℕ → List BBox → List WriteEvent
  | _, [] => []
  | i, d :: ds => boxEvents i d ++ boxWriteEvents (i + 1) ds

/-- All stores of one publish (lines 133–144), in program order:
`frame_number`, then `num_detections = min(N, 50)`, then the first
`min(N, 50)` box entries field by field. -/
def publishEvents (frameNo : ℤ) (ds : List BBox) : List WriteEvent :=
  .wFrame frameNo :: .wNum (min ds.length CAPACITY : ℕ) ::
    boxWriteEvents 0 (ds.take CAPACITY)

/-- The record after one complete publish: the store sequence applied to the
previous record state. -/
def publish (st : DetectionData) (frameNo : ℤ) (ds : List BBox) : DetectionData :=
  applyEvents st (publishEvents frameNo ds)

/-- Every record state observable while the stores of `evs` are being issued
over initial state `st`: the state after each prefix of the store sequence
(the final, fully-written state included). -/
def scanStates (st : DetectionData) : List WriteEvent → List DetectionData
  | [] => [st]
  | e :: es => st :: scanStates (applyEvent st e) es

/-- Sequential overwrite of the array slots `i, i+1, ...` with the entries of
`ds` (the net effect on `boxes` of the loop at lines 136–144). -/
def writeBoxesFrom : List BBox → ℕ → List BBox → List BBox
  | bs, _, [] => bs
  | bs, i, d :: ds => writeBoxesFrom (modifyAt bs i fun _ => d) (i + 1) ds

/-- One row of one YOLO output tensor (`outs[i].row(j)` in the source):
columns 0–4 are center-x, center-y, width, height (normalized) and
objectness (unused by the code), the remaining columns are the per-class
scores (`colRange(5, cols)`). -/
structure RawRow where
  c0 : ℚ
  c1 : ℚ
  c2 : ℚ
  c3 : ℚ
  c4 : ℚ
  scores : List ℚ
deriving DecidableEq, Repr

/-- Scan of `minMaxLoc` over the class scores: running maximum and the index
of its first occurrence (strictly greater values displace the current best,
ties keep the earlier index). -/
def scanMax : List ℚ → ℚ → ℕ → ℕ → ℚ × ℕ
  | [], best, bestIdx, _ => (best, bestIdx)
  | s :: ss, best, bestIdx, k =>
    if best < s then scanMax ss s k (k + 1) else scanMax ss best bestIdx (k + 1)

/-- `minMaxLoc(scores, 0, &confidence, 0, &classIdPoint)` (line 110):
the maximal class score and its class index. An empty score row (impossible
for a real YOLO tensor) yields `(0, 0)` and is rejected by the threshold. -/
def rowConfClass (scores : List ℚ) : ℚ × ℕ :=
  match scores with
  | [] => (0, 0)
  | s :: ss => scanMax ss s 0 1

def rowConf (r : RawRow) : ℚ := (rowConfClass r.scores).1

def rowClass (r : RawRow) : ℕ := (rowConfClass r.scores).2

/-- C `(int)` cast of a real value: truncation toward zero. -/
def truncQ (q : ℚ) : ℤ := Int.tdiv q.num q.den

/-- `cv::Rect` with integer coordinates. -/
structure Rect where
  x : ℤ
  y : ℤ
  width : ℤ
  height : ℤ
deriving DecidableEq, Repr

/-- Box decoding of lines 114–119: scale the normalized outputs by the
original frame dimensions, truncate to `int`, and shift the center to the
top-left corner with C integer division by 2. -/
def decodeBox (frameW frameH : ℤ) (r : RawRow) : Rect :=
  let centerX := truncQ (r.c0 * (frameW : ℚ))
  let centerY := truncQ (r.c1 * (frameH : ℚ))
  let width := truncQ (r.c2 * (frameW : ℚ))
  let height := truncQ (r.c3 * (frameH : ℚ))
  { x := centerX - Int.tdiv width 2
    y := centerY - Int.tdiv height 2
    width := width
    height := height }

/-- The filter loop of lines 104–126: keep a row when its best class is the
person class (index 0) and the best score strictly exceeds `confThreshold`;
each kept row contributes its decoded rectangle and its confidence, in row
order. -/
def candidates (frameW frameH : ℤ) (confThr : ℚ) (outs : List (List RawRow)) :
    List (Rect × ℚ) :=
  (outs.flatten.filter
      (fun r => rowClass r == 0 && decide (confThr < rowConf r))).map
    (fun r => (decodeBox frameW frameH r, rowConf r))

/-- Intersection area of two `cv::Rect` values (`operator&`): zero when the
overlap is empty. -/
def interArea (a b : Rect) : ℤ :=
  let x1 := max a.x b.x
  let y1 := max a.y b.y
  let x2 := min (a.x + a.width) (b.x + b.width)
  let y2 := min (a.y + a.height) (b.y + b.height)
  if 0 < x2 - x1 ∧ 0 < y2 - y1 then (x2 - x1) * (y2 - y1) else 0

/-- Modelled from the spec: intersection-over-union — "overlap ratio between
two rectangles; area of intersection divided by area of union" — as OpenCV's
`NMSBoxes` (library code, not in this repository) computes it on integer
rectangles; a zero-area union yields 0 (`ℚ` division by zero). -/
def iou (a b : Rect) : ℚ :=
  (interArea a b : ℚ) /
    ((a.width * a.height + b.width * b.height - interArea a b : ℤ) : ℚ)

/-- Modelled from the spec: the greedy core of non-maximum suppression —
"repeatedly take the highest-scoring remaining box, emit it, and discard any
remaining box whose intersection-over-union with it exceeds `nmsThreshold`".
Entries are (original index, rectangle, score), already sorted by descending
score. The first argument is fuel making the recursion structural; each
step strictly shrinks the list, so fuel = initial length never runs out. -/
def greedyAux (iouThr : ℚ) : ℕ → List (ℕ × Rect × ℚ) → List (ℕ × Rect × ℚ)
  | _, [] => []
  | 0, _ :: _ => []
  | n + 1, p :: rest =>
    p :: greedyAux iouThr n
      (rest.filter fun q => decide (iou p.2.1 q.2.1 ≤ iouThr))

def greedy (iouThr : ℚ) (l : List (ℕ × Rect × ℚ)) : List (ℕ × Rect × ℚ) :=
  greedyAux iouThr l.length l

/-- Modelled from the spec: the pre-pass of `NMSBoxes` — drop candidates with
score not strictly above `score_threshold`, then "sort descending by
confidence" with "ties broken by original candidate order" (stable sort). -/
def sortedCandidates (scoreThr : ℚ) (entries : List (ℕ × Rect × ℚ)) :
    List (ℕ × Rect × ℚ) :=
  List.insertionSort (fun a b => b.2.2 ≤ a.2.2)
    (entries.filter fun e => decide (scoreThr < e.2.2))

/-- Modelled from the spec: full non-maximum suppression over indexed
candidates. -/
def nmsEntries (scoreThr iouThr : ℚ) (entries : List (ℕ × Rect × ℚ)) :
    List (ℕ × Rect × ℚ) :=
  greedy iouThr (sortedCandidates scoreThr entries)

/-- Pairing of each candidate with its index in the `boxes`/`confidences`
vectors. -/
def enumFromIdx : ℕ → List (Rect × ℚ) → List (ℕ × Rect × ℚ)
  | _, [] => []
  | i, c :: cs => (i, c) :: enumFromIdx (i + 1) cs

/-- The `indices` vector produced by `NMSBoxes(boxes, confidences,
confThreshold, nmsThreshold, indices)` at line 130, modelled from the spec
over the paired candidate list. -/
def nmsIndices (cands : List (Rect × ℚ)) (scoreThr iouThr : ℚ) : List ℕ :=
  (nmsEntries scoreThr iouThr (enumFromIdx 0 cands)).map (·.1)

def defaultCand : Rect × ℚ := (⟨0, 0, 0, 0⟩, 0)

/-- The `BBox` entry written for one kept index (lines 137–143):
`boxes[idx]` and `confidences[idx]`, each `int` coordinate stored into a
`float` field. -/
def detOfIndex (cands : List (Rect × ℚ)) (idx : ℕ) : BBox :=
  let c := cands.getD idx defaultCand
  { x := (c.1.x : ℚ)
    y := (c.1.y : ℚ)
    width := (c.1.width : ℚ)
    height := (c.1.height : ℚ)
    confidence := c.2 }

/-- The detection list one loop iteration publishes for one frame:
filter, suppress, then look each surviving index up in the candidate
vectors (lines 104–144). -/
def detectFrame (frameW frameH : ℤ) (confThr nmsThr : ℚ)
    (outs : List (List RawRow)) : List BBox :=
  let cands := candidates frameW frameH confThr outs
  (nmsIndices cands confThr nmsThr).map (detOfIndex cands)

/-- The relation "descending confidence" on indexed candidates. -/
def confGe (a b : ℕ × Rect × ℚ) : Prop := b.2.2 ≤ a.2.2

instance : DecidableRel confGe := fun _ _ => inferInstanceAs (Decidable (_ ≤ _))

instance : IsTotal (ℕ × Rect × ℚ) confGe := ⟨fun a b => le_total b.2.2 a.2.2⟩

instance : IsTrans (ℕ × Rect × ℚ) confGe := ⟨fun _ _ _ h1 h2 => le_trans h2 h1⟩

/-- Tie-breaking order: among equal confidences, smaller original index
first. -/
def tieOrder (a b : ℕ × Rect × ℚ) : Prop := a.2.2 = b.2.2 → a.1 < b.1

/-- `confThreshold` (line 80). -/
def confThreshold : ℚ := 1 / 2

/-- `nmsThreshold` (line 81). -/
def nmsThreshold : ℚ := 2 / 5

/-- One decoded frame together with the outcome of the external inference
call on it. `inferRes = none` models `net.forward` raising an exception
(`InferenceError`); the source installs no handler for it. `cols`/`rows`
are the frame's pixel dimensions. -/
structure Frame where
  cols : ℤ
  rows : ℤ
  inferRes : Option (List (List RawRow))
deriving DecidableEq, Repr

/-- Shared-memory lifecycle system calls the producer can make.
`remove` is `shmctl(IPC_RMID)`, the call that would destroy the region. -/
inductive ShmEvent where
  | create
  | attach
  | detach
  | remove
deriving DecidableEq, Repr

/-- Result of the streaming loop: final frame counter, final record state,
the record snapshot after each publish, and every record store issued, in
program order. -/
structure LoopOut where
  count : ℕ
  state : DetectionData
  published : List DetectionData
  events : List WriteEvent
deriving DecidableEq, Repr

/-- The `while (true)` loop of lines 85–150: for each decoded frame,
increment `frameCount`, run inference, filter, suppress and publish.
Returns `none` when inference throws — the source has no try/catch, so the
uncaught exception terminates the process and nothing further runs. -/
def loopRun : List Frame → ℕ → DetectionData → Option LoopOut
  | [], n, st => some ⟨n, st, [], []⟩
  | f :: fs, n, st =>
    match f.inferRes with
    | none => none
    | some outs =>
      match loopRun fs (n + 1) (publish st ((n : ℤ) + 1)
          (detectFrame f.cols f.rows confThreshold nmsThreshold outs)) with
      | none => none
      | some out =>
        some ⟨out.count, out.state,
          publish st ((n : ℤ) + 1)
            (detectFrame f.cols f.rows confThreshold nmsThreshold outs)
            :: out.published,
          publishEvents ((n : ℤ) + 1)
            (detectFrame f.cols f.rows confThreshold nmsThreshold outs)
            ++ out.events⟩

/-- Outcome of a complete producer run. -/
structure RunResult where
  finalState : DetectionData
  published : List DetectionData
  events : List WriteEvent
  shm : List ShmEvent
deriving DecidableEq, Repr

/-- `main` after successful initialization (lines 57–166): create and attach
the shared region, zero it, stream all frames, set `processing_complete`
(line 153), and detach (line 161) — the region is never removed. `none`
models process death from an uncaught mid-stream inference exception. -/
def runMain (frames : List Frame) : Option RunResult :=
  match loopRun frames 0 initState with
  | none => none
  | some out =>
    some { finalState := applyEvent out.state (.wComplete true)
           published := out.published
           events := out.events ++ [.wComplete true]
           shm := [ShmEvent.create, ShmEvent.attach, ShmEvent.detach] }

/-- Is this store the one that sets `processing_complete`? -/
def isCompleteWrite : WriteEvent → Bool
  | .wComplete _ => true
  | _ => false

/-- The detection a single filtered row contributes once published: the
decoded rectangle's coordinates and the row's best class score. -/
def detOfRow (frameW frameH : ℤ) (r : RawRow) : BBox :=
  { x := ((decodeBox frameW frameH r).x : ℚ)
    y := ((decodeBox frameW frameH r).y : ℚ)
    width := ((decodeBox frameW frameH r).width : ℚ)
    height := ((decodeBox frameW frameH r).height : ℚ)
    confidence := rowConf r }

/-! ## Concrete data used by witnesses and counterexamples -/

/-- A frame whose inference succeeds with no output tensors. -/
def frameOkEmpty : Frame := ⟨100, 100, some []⟩

/-- A frame whose inference call throws. -/
def frameBad : Frame := ⟨100, 100, none⟩

def exFrames2 : List Frame := [frameOkEmpty, frameOkEmpty]

def exFrames3 : List Frame := [frameOkEmpty, frameBad, frameOkEmpty]

/-- The record published for frame `k` when no detection was found. -/
def exRec (k : ℤ) : DetectionData :=
  { frame_number := k
    num_detections := 0
    boxes := List.replicate CAPACITY zeroBBox
    processing_complete := false }

/-- What a two-frame zero-detection run produces. -/
def exRun2 : RunResult :=
  { finalState := { exRec 2 with processing_complete := true }
    published := [exRec 1, exRec 2]
    events := publishEvents 1 [] ++ (publishEvents 2 [] ++ []) ++
      [.wComplete true]
    shm := [.create, .attach, .detach] }

def exDetA : BBox := ⟨10, 10, 20, 20, 9/10⟩

def exDetB : BBox := ⟨30, 30, 5, 5, 7/10⟩

def exDetC : BBox := ⟨80, 80, 12, 12, 4/5⟩

/-- The record after publishing frame 1 with two detections. -/
def exStA : DetectionData := publish initState 1 [exDetA, exDetB]

/-- The record mid-publish of frame 2 (one detection), after exactly the
`frame_number` and `num_detections` stores of lines 133–134 have landed but
before any box store of lines 139–143. -/
def tornMid : DetectionData := applyEvents exStA [.wFrame 2, .wNum 1]

/-- Is the shared region still allocated after these lifecycle calls? -/
def regionAlive (evs : List ShmEvent) : Bool :=
  evs.contains .create && !(evs.contains .remove)

/-- 51 distinct non-overlapping detections with strictly descending
confidences. -/
def exDs51 : List BBox :=
  (List.range 51).map fun k : ℕ =>
    { x := (k : ℚ) * 20
      y := 0
      width := 10
      height := 10
      confidence := mkRat (950 - (k : ℤ)) 1000 }

/-- A row whose only class score is 0.9: passes the filter. -/
def exRow : RawRow :=
  ⟨mkRat 1 10, mkRat 1 10, mkRat 1 10, mkRat 1 10, 1, [mkRat 9 10]⟩

def exOuts : List (List RawRow) := [[exRow]]

/-- Modelled from the spec: the claimed exact-arithmetic box conversion
`left = centerX*frameWidth − width*frameWidth/2` (§4.1), with no
truncation. -/
def specLeft (frameW : ℤ) (r : RawRow) : ℚ :=
  r.c0 * frameW - r.c2 * frameW / 2

/-- Modelled from the spec: `top = centerY*frameHeight − height*frameHeight/2`
in exact arithmetic. -/
def specTop (frameH : ℤ) (r : RawRow) : ℚ :=
  r.c1 * frameH - r.c3 * frameH / 2

/-- A row with all normalized outputs 1/2 — on a 101-pixel frame the exact
formula gives fractional values the code's `(int)` casts cut off. -/
def exRow6 : RawRow :=
  ⟨mkRat 1 2, mkRat 1 2, mkRat 1 2, mkRat 1 2, 1, [mkRat 9 10]⟩

/-- Three candidates: the second overlaps the first heavily
(IoU = 81/119 > 2/5) and is suppressed; the third is disjoint and kept. -/
def exCands : List (Rect × ℚ) :=
  [(⟨0, 0, 10, 10⟩, mkRat 9 10), (⟨1, 1, 10, 10⟩, mkRat 8 10),
   (⟨100, 100, 10, 10⟩, mkRat 7 10)]

theorem modifyAt_length (bs : List BBox) (i : ℕ) (f : BBox → BBox) :
    (modifyAt bs i f).length = bs.length := by
  induction bs generalizing i with
  | nil => rfl
  | cons b bs ih =>
    cases i with
    | zero => rfl
    | succ n => simp [modifyAt, ih]

theorem modifyAt_getD_ne (bs : List BBox) (i j : ℕ) (f : BBox → BBox)
    (v : BBox) (h : j ≠ i) : (modifyAt bs i f).getD j v = bs.getD j v := by
  induction bs generalizing i j with
  | nil => rfl
  | cons b bs ih =>
    cases i with
    | zero =>
      cases j with
      | zero => exact absurd rfl h
      | succ m => rfl
    | succ n =>
      cases j with
      | zero => rfl
      | succ m =>
        simpa [modifyAt, List.getD] using ih n m (fun hc => h (by omega))

theorem modifyAt_getD_eq (bs : List BBox) (i : ℕ) (f : BBox → BBox)
    (v : BBox) (h : i < bs.length) :
    (modifyAt bs i f).getD i v = f (bs.getD i v) := by
  induction bs generalizing i with
  | nil => simp at h
  | cons b bs ih =>
    cases i with
    | zero => rfl
    | succ n =>
      simpa [modifyAt, List.getD] using ih n (by simpa using h)

theorem modifyAt_modifyAt (bs : List BBox) (i : ℕ) (f g : BBox → BBox) :
    modifyAt (modifyAt bs i f) i g = modifyAt bs i (g ∘ f) := by
  induction bs generalizing i with
  | nil => rfl
  | cons b bs ih =>
    cases i with
    | zero => rfl
    | succ n => simp [modifyAt, ih]

theorem applyEvents_append (st : DetectionData) (a b : List WriteEvent) :
    applyEvents st (a ++ b) = applyEvents (applyEvents st a) b := by
  simp [applyEvents]

theorem applyEvents_boxEvents (st : DetectionData) (i : ℕ) (b : BBox) :
    applyEvents st (boxEvents i b) =
      { st with boxes := modifyAt st.boxes i fun _ => b } := by
  simp only [applyEvents, boxEvents, List.foldl, applyEvent, modifyAt_modifyAt]
  rfl

theorem applyEvents_boxWriteEvents (st : DetectionData) (i : ℕ) (ds : List BBox) :
    applyEvents st (boxWriteEvents i ds) =
      { st with boxes := writeBoxesFrom st.boxes i ds } := by
  induction ds generalizing st i with
  | nil => simp [applyEvents, boxWriteEvents, writeBoxesFrom]
  | cons d ds ih =>
    rw [boxWriteEvents, applyEvents_append, applyEvents_boxEvents, ih]
    rfl

theorem writeBoxesFrom_length (bs : List BBox) (i : ℕ) (ds : List BBox) :
    (writeBoxesFrom bs i ds).length = bs.length := by
  induction ds generalizing bs i with
  | nil => rfl
  | cons d ds ih => rw [writeBoxesFrom, ih, modifyAt_length]

theorem writeBoxesFrom_getD_lt (bs : List BBox) (i : ℕ) (ds : List BBox)
    (j : ℕ) (v : BBox) (h : j < i) :
    (writeBoxesFrom bs i ds).getD j v = bs.getD j v := by
  induction ds generalizing bs i with
  | nil => rfl
  | cons d ds ih =>
    rw [writeBoxesFrom, ih _ _ (by omega), modifyAt_getD_ne _ _ _ _ _ (by omega)]

theorem writeBoxesFrom_getD_ge (bs : List BBox) (i : ℕ) (ds : List BBox)
    (j : ℕ) (v : BBox) (h : i + ds.length ≤ j) :
    (writeBoxesFrom bs i ds).getD j v = bs.getD j v := by
  induction ds generalizing bs i with
  | nil => rfl
  | cons d ds ih =>
    rw [writeBoxesFrom, ih _ _ (by simp at h; omega),
      modifyAt_getD_ne _ _ _ _ _ (by simp at h; omega)]

theorem writeBoxesFrom_getD_mid (bs : List BBox) (i : ℕ) (ds : List BBox)
    (j : ℕ) (v : BBox) (h1 : i ≤ j) (h2 : j < i + ds.length)
    (h3 : j < bs.length) :
    (writeBoxesFrom bs i ds).getD j v = ds.getD (j - i) v := by
  induction ds generalizing bs i with
  | nil => simp at h2; omega
  | cons d ds ih =>
    rw [writeBoxesFrom]
    rcases Nat.eq_or_lt_of_le h1 with rfl | hlt
    · rw [writeBoxesFrom_getD_lt _ _ _ _ _ (by omega),
        modifyAt_getD_eq _ _ _ _ h3]
      simp
    · rw [ih _ (i + 1) hlt (by simp at h2 ⊢; omega)
        (by rw [modifyAt_length]; exact h3)]
      have hj : j - i = (j - (i + 1)) + 1 := by omega
      simp [hj, List.getD]

theorem getD_take (l : List BBox) (n j : ℕ) (v : BBox) (h : j < n) :
    (l.take n).getD j v = l.getD j v := by
  induction l generalizing n j with
  | nil => simp
  | cons a l ih =>
    cases n with
    | zero => omega
    | succ m =>
      cases j with
      | zero => rfl
      | succ k => simpa [List.getD] using ih m k (by omega)

/-- Closed form of one publish: `frame_number` and `num_detections` take the
new values, the first `min(N, 50)` box slots are overwritten in order, the
rest of `boxes` and `processing_complete` are untouched. -/
theorem publish_eq (st : DetectionData) (n : ℤ) (ds : List BBox) :
    publish st n ds =
      { frame_number := n
        num_detections := (min ds.length CAPACITY : ℕ)
        boxes := writeBoxesFrom st.boxes 0 (ds.take CAPACITY)
        processing_complete := st.processing_complete } := by
  show applyEvents
      { st with
        frame_number := n
        num_detections := (min ds.length CAPACITY : ℕ) }
      (boxWriteEvents 0 (ds.take CAPACITY)) = _
  rw [applyEvents_boxWriteEvents]

theorem publish_frame_number (st : DetectionData) (n : ℤ) (ds : List BBox) :
    (publish st n ds).frame_number = n := by rw [publish_eq]

theorem publish_num_detections (st : DetectionData) (n : ℤ) (ds : List BBox) :
    (publish st n ds).num_detections = (min ds.length CAPACITY : ℕ) := by
  rw [publish_eq]

theorem publish_processing_complete (st : DetectionData) (n : ℤ) (ds : List BBox) :
    (publish st n ds).processing_complete = st.processing_complete := by
  rw [publish_eq]

theorem publish_boxes_length (st : DetectionData) (n : ℤ) (ds : List BBox) :
    (publish st n ds).boxes.length = st.boxes.length := by
  rw [publish_eq]; exact writeBoxesFrom_length _ _ _

theorem publish_boxes_getD_lt (st : DetectionData) (n : ℤ) (ds : List BBox)
    (j : ℕ) (v : BBox) (h1 : j < min ds.length CAPACITY)
    (h2 : j < st.boxes.length) :
    (publish st n ds).boxes.getD j v = ds.getD j v := by
  rw [publish_eq]
  show (writeBoxesFrom st.boxes 0 (ds.take CAPACITY)).getD j v = _
  rw [writeBoxesFrom_getD_mid _ _ _ _ _ (Nat.zero_le _)
    (by simp only [List.length_take]; omega) h2]
  simpa using getD_take ds CAPACITY j v (by omega)

theorem publish_boxes_getD_ge (st : DetectionData) (n : ℤ) (ds : List BBox)
    (j : ℕ) (v : BBox) (h : min ds.length CAPACITY ≤ j) :
    (publish st n ds).boxes.getD j v = st.boxes.getD j v := by
  rw [publish_eq]
  show (writeBoxesFrom st.boxes 0 (ds.take CAPACITY)).getD j v = _
  exact writeBoxesFrom_getD_ge _ _ _ _ _ (by simp only [List.length_take]; omega)

theorem interArea_comm (a b : Rect) : interArea a b = interArea b a := by
  unfold interArea
  rw [max_comm a.x, max_comm a.y, min_comm (a.x + a.width),
    min_comm (a.y + a.height)]

theorem iou_comm (a b : Rect) : iou a b = iou b a := by
  unfold iou
  rw [interArea_comm, add_comm (a.width * a.height)]

theorem greedyAux_sublist (t : ℚ) :
    ∀ (n : ℕ) (l : List (ℕ × Rect × ℚ)), (greedyAux t n l).Sublist l
  | _, [] => by rw [greedyAux]
  | 0, p :: rest => by rw [greedyAux]; exact List.nil_sublist _
  | n + 1, p :: rest => by
    rw [greedyAux]
    exact List.Sublist.cons₂ p
      ((greedyAux_sublist t n _).trans (List.filter_sublist rest))

theorem greedy_sublist' (t : ℚ) (l : List (ℕ × Rect × ℚ)) :
    (greedy t l).Sublist l :=
  greedyAux_sublist t l.length l

theorem greedyAux_pairwise_iou (t : ℚ) :
    ∀ (n : ℕ) (l : List (ℕ × Rect × ℚ)),
      (greedyAux t n l).Pairwise fun a b => iou a.2.1 b.2.1 ≤ t
  | _, [] => by rw [greedyAux]; exact List.Pairwise.nil
  | 0, p :: rest => by rw [greedyAux]; exact List.Pairwise.nil
  | n + 1, p :: rest => by
    rw [greedyAux]
    refine List.Pairwise.cons ?_ (greedyAux_pairwise_iou t n _)
    intro q hq
    have hmem : q ∈ rest.filter fun q => decide (iou p.2.1 q.2.1 ≤ t) :=
      (greedyAux_sublist t n _).subset hq
    simpa using (List.mem_filter.mp hmem).2

theorem sortedCandidates_sorted (s : ℚ) (l : List (ℕ × Rect × ℚ)) :
    List.Sorted confGe (sortedCandidates s l) := by
  unfold sortedCandidates
  exact List.sorted_insertionSort confGe _

theorem sortedCandidates_perm (s : ℚ) (l : List (ℕ × Rect × ℚ)) :
    (sortedCandidates s l).Perm (l.filter fun e => decide (s < e.2.2)) :=
  List.perm_insertionSort _ _

theorem pairwise_tieOrder_orderedInsert (a : ℕ × Rect × ℚ) :
    ∀ l : List (ℕ × Rect × ℚ), (∀ b ∈ l, tieOrder a b) →
      l.Pairwise tieOrder →
      (List.orderedInsert confGe a l).Pairwise tieOrder
  | [], _, _ => by simp [List.orderedInsert]
  | b :: bs, h1, h2 => by
    rw [List.orderedInsert]
    by_cases hr : confGe a b
    · rw [if_pos hr]
      exact List.Pairwise.cons h1 h2
    · rw [if_neg hr]
      rcases List.pairwise_cons.mp h2 with ⟨hb, hbs⟩
      refine List.Pairwise.cons ?_
        (pairwise_tieOrder_orderedInsert a bs (fun c hc => h1 c (by simp [hc]))
          hbs)
      intro c hc
      have hmem : c ∈ a :: bs :=
        (List.perm_orderedInsert confGe a bs).mem_iff.mp hc
      rcases List.mem_cons.mp hmem with rfl | hcb
      · intro hba
        exact absurd (le_of_eq hba) hr
      · exact hb c hcb

theorem pairwise_tieOrder_insertionSort :
    ∀ l : List (ℕ × Rect × ℚ), l.Pairwise tieOrder →
      (List.insertionSort confGe l).Pairwise tieOrder
  | [], _ => by simp
  | a :: l, h => by
    rcases List.pairwise_cons.mp h with ⟨ha, hl⟩
    rw [List.insertionSort]
    refine pairwise_tieOrder_orderedInsert a _ ?_
      (pairwise_tieOrder_insertionSort l hl)
    intro b hb
    exact ha b ((List.perm_insertionSort confGe l).mem_iff.mp hb)

theorem enumFromIdx_length (i : ℕ) (l : List (Rect × ℚ)) :
    (enumFromIdx i l).length = l.length := by
  induction l generalizing i with
  | nil => rfl
  | cons c cs ih => simp [enumFromIdx, ih]

theorem mem_enumFromIdx (i : ℕ) (l : List (Rect × ℚ)) (e : ℕ × Rect × ℚ)
    (h : e ∈ enumFromIdx i l) :
    i ≤ e.1 ∧ e.1 - i < l.length ∧ l.getD (e.1 - i) defaultCand = e.2 ∧
      e.2 ∈ l := by
  induction l generalizing i with
  | nil => simp [enumFromIdx] at h
  | cons c cs ih =>
    rw [enumFromIdx] at h
    rcases List.mem_cons.mp h with he | h2
    · subst he
      simp
    · rcases ih (i + 1) h2 with ⟨h1, h2, h3, h4⟩
      refine ⟨by omega, by simp; omega, ?_, by simp [h4]⟩
      have he : e.1 - i = (e.1 - (i + 1)) + 1 := by omega
      simpa [he, List.getD] using h3

theorem enumFromIdx_pairwise_idx (i : ℕ) (l : List (Rect × ℚ)) :
    (enumFromIdx i l).Pairwise fun a b => a.1 < b.1 := by
  induction l generalizing i with
  | nil => exact List.Pairwise.nil
  | cons c cs ih =>
    rw [enumFromIdx]
    refine List.Pairwise.cons ?_ (ih (i + 1))
    intro e he
    have := (mem_enumFromIdx (i + 1) cs e he).1
    omega

theorem nmsEntries_mem (s t : ℚ) (l : List (ℕ × Rect × ℚ))
    (e : ℕ × Rect × ℚ) (h : e ∈ nmsEntries s t l) :
    e ∈ l := by
  have h1 : e ∈ sortedCandidates s l := (greedy_sublist' t _).subset h
  have h2 : e ∈ l.filter fun e => decide (s < e.2.2) :=
    (sortedCandidates_perm s l).subset h1
  exact (List.filter_sublist l).subset h2

theorem nmsEntries_conf_gt (s t : ℚ) (l : List (ℕ × Rect × ℚ))
    (e : ℕ × Rect × ℚ) (h : e ∈ nmsEntries s t l) : s < e.2.2 := by
  have h1 : e ∈ sortedCandidates s l := (greedy_sublist' t _).subset h
  have h2 : e ∈ l.filter fun e => decide (s < e.2.2) :=
    (sortedCandidates_perm s l).subset h1
  simpa using (List.mem_filter.mp h2).2

theorem nmsEntries_length_le (s t : ℚ) (l : List (ℕ × Rect × ℚ)) :
    (nmsEntries s t l).length ≤ l.length :=
  le_trans (List.Sublist.length_le (greedy_sublist' t _))
    (le_trans (le_of_eq (sortedCandidates_perm s l).length_eq)
      (List.Sublist.length_le (List.filter_sublist l)))

theorem nmsEntries_sorted_desc (s t : ℚ) (l : List (ℕ × Rect × ℚ)) :
    (nmsEntries s t l).Pairwise confGe :=
  List.Pairwise.sublist (greedy_sublist' t _) (sortedCandidates_sorted s l)

theorem nmsEntries_pairwise_iou (s t : ℚ) (l : List (ℕ × Rect × ℚ)) :
    (nmsEntries s t l).Pairwise fun a b => iou a.2.1 b.2.1 ≤ t :=
  greedyAux_pairwise_iou t _ _

theorem nmsEntries_tie_order (s t : ℚ) (l : List (ℕ × Rect × ℚ))
    (h : l.Pairwise tieOrder) : (nmsEntries s t l).Pairwise tieOrder :=
  List.Pairwise.sublist (greedy_sublist' t _)
    (pairwise_tieOrder_insertionSort _ (List.Pairwise.filter _ h))

theorem boxEvents_no_complete (i : ℕ) (b : BBox) (e : WriteEvent)
    (h : e ∈ boxEvents i b) : isCompleteWrite e = false := by
  simp only [boxEvents, List.mem_cons, List.not_mem_nil, or_false] at h
  rcases h with rfl | rfl | rfl | rfl | rfl <;> rfl

theorem boxWriteEvents_no_complete (i : ℕ) (ds : List BBox) (e : WriteEvent)
    (h : e ∈ boxWriteEvents i ds) : isCompleteWrite e = false := by
  induction ds generalizing i with
  | nil => cases h
  | cons d ds ih =>
    rw [boxWriteEvents] at h
    rcases List.mem_append.mp h with h | h
    · exact boxEvents_no_complete i d e h
    · exact ih (i + 1) h

theorem publishEvents_no_complete (n : ℤ) (ds : List BBox) (e : WriteEvent)
    (h : e ∈ publishEvents n ds) : isCompleteWrite e = false := by
  rcases List.mem_cons.mp h with rfl | h
  · rfl
  rcases List.mem_cons.mp h with rfl | h
  · rfl
  exact boxWriteEvents_no_complete 0 _ e h

theorem loopRun_no_complete (frames : List Frame) (n : ℕ) (st : DetectionData)
    (out : LoopOut) (h : loopRun frames n st = some out) (e : WriteEvent)
    (he : e ∈ out.events) : isCompleteWrite e = false := by
  induction frames generalizing n st out with
  | nil =>
    rw [loopRun] at h
    injection h with h
    subst h
    cases he
  | cons f fs ih =>
    rw [loopRun] at h
    split at h
    · cases h
    · split at h
      · cases h
      · next out' hl =>
        injection h with h
        subst h
        rcases List.mem_append.mp he with he | he
        · exact publishEvents_no_complete _ _ e he
        · exact ih _ _ _ hl he

theorem loopRun_frame_numbers (frames : List Frame) (n : ℕ)
    (st : DetectionData) (out : LoopOut) (h : loopRun frames n st = some out) :
    out.published.map (·.frame_number) =
      (List.range frames.length).map fun k : ℕ => (n + k + 1 : ℤ) := by
  induction frames generalizing n st out with
  | nil =>
    rw [loopRun] at h
    injection h with h
    subst h
    rfl
  | cons f fs ih =>
    rw [loopRun] at h
    split at h
    · cases h
    · split at h
      · cases h
      · next out' hl =>
        injection h with h
        subst h
        have hih := ih _ _ _ hl
        simp only [List.map_cons, publish_frame_number, hih,
          List.length_cons, List.range_succ_eq_map, List.map_map,
          List.cons.injEq]
        refine ⟨by push_cast; ring, List.map_congr_left fun k _ => ?_⟩
        simp only [Function.comp_apply]
        push_cast
        ring

theorem mem_candidates (frameW frameH : ℤ) (confThr : ℚ)
    (outs : List (List RawRow)) (c : Rect × ℚ)
    (h : c ∈ candidates frameW frameH confThr outs) :
    ∃ r ∈ outs.flatten, rowClass r = 0 ∧ confThr < rowConf r ∧
      c = (decodeBox frameW frameH r, rowConf r) := by
  unfold candidates at h
  rcases List.mem_map.mp h with ⟨r, hr, rfl⟩
  rcases List.mem_filter.mp hr with ⟨hr1, hr2⟩
  simp only [Bool.and_eq_true, beq_iff_eq, decide_eq_true_eq] at hr2
  exact ⟨r, hr1, hr2.1, hr2.2, rfl⟩

theorem mem_detectFrame (frameW frameH : ℤ) (confThr nmsThr : ℚ)
    (outs : List (List RawRow)) (b : BBox)
    (h : b ∈ detectFrame frameW frameH confThr nmsThr outs) :
    ∃ r ∈ outs.flatten, rowClass r = 0 ∧ confThr < rowConf r ∧
      b = detOfRow frameW frameH r := by
  unfold detectFrame at h
  rcases List.mem_map.mp h with ⟨idx, hidx, rfl⟩
  unfold nmsIndices at hidx
  rcases List.mem_map.mp hidx with ⟨e, he, rfl⟩
  have hmem := nmsEntries_mem _ _ _ _ he
  rcases mem_enumFromIdx 0 _ _ hmem with ⟨-, -, hget, hmem2⟩
  rcases mem_candidates _ _ _ _ _ hmem2 with ⟨r, hr, h0, hconf, hc⟩
  refine ⟨r, hr, h0, hconf, ?_⟩
  rw [Nat.sub_zero] at hget
  simp only [detOfIndex, detOfRow, hget, hc]

/-! ## Claims -/

/-- **C1.** The claim says a reader polling during a publish observes either
the previous complete record or the new complete record, never a mixture.
The code (lines 132–144) writes the fields as plain sequential stores with
no version/sequence marker, so intermediate states are observable: while
frame 2 (one detection) is being published over frame 1's record (two
detections), the state after the `num_detections` store is a mixture — new
`frame_number = 2` and `num_detections = 1`, but `detections[0]` still
holds frame 1's box. This theorem exhibits that observable torn state;
the code therefore violates the claim. -/
theorem claim_C1_torn_read :
    tornMid ∈ scanStates exStA (publishEvents 2 [exDetC]) ∧
      tornMid ≠ exStA ∧ tornMid ≠ publish exStA 2 [exDetC] ∧
      tornMid.num_detections = 1 ∧
      tornMid.boxes.getD 0 default = exDetA ∧
      (publish exStA 2 [exDetC]).boxes.getD 0 default = exDetC := by
  with_unfolding_all decide

/-- **C3.** The claim says an inference failure on one frame is logged,
that frame alone is skipped, and the stream continues. The loop
(lines 85–150) has no try/catch: an exception from `net.forward` propagates
out of `main` and terminates the process. On a 3-frame stream whose second
frame's inference throws, the whole run dies (`none`): frame 3 is never
processed and `processing_complete` is never set — while the same stream
without the failing frame completes. The code therefore violates the
claim. -/
theorem claim_C3_abort :
    runMain exFrames3 = none ∧ (runMain exFrames2).isSome = true := by
  with_unfolding_all decide

/-- **C4.** In a run that completes, the published `frame_number` sequence
is exactly 1, 2, ..., number of decoded frames: it starts at 1 and
increases by exactly 1 per decoded frame, with no reuse and no gaps. -/
theorem claim_C4_frame_numbers (frames : List Frame) (r : RunResult)
    (h : runMain frames = some r) :
    r.published.map (·.frame_number) =
      (List.range frames.length).map fun k : ℕ => (k + 1 : ℤ) := by
  unfold runMain at h
  split at h
  · cases h
  · next out hl =>
    injection h with h
    subst h
    simpa using loopRun_frame_numbers frames 0 initState out hl

theorem claim_C4_witness :
    runMain exFrames2 = some exRun2 ∧
      exRun2.published.map (·.frame_number) =
        (List.range exFrames2.length).map fun k : ℕ => (k + 1 : ℤ) :=
  ⟨by with_unfolding_all decide,
    claim_C4_frame_numbers exFrames2 exRun2 (by with_unfolding_all decide)⟩

/-- **C8.** In a run that completes, the `processing_complete := true`
store (line 153) is the final store into the shared record: it occurs
exactly once, nothing is stored afterwards (no publish follows it), and the
final record has `processing_complete = true`. -/
theorem claim_C8_completion_last (frames : List Frame) (r : RunResult)
    (h : runMain frames = some r) :
    r.events.getLast? = some (.wComplete true) ∧
      r.events.countP isCompleteWrite = 1 ∧
      r.finalState.processing_complete = true := by
  unfold runMain at h
  split at h
  · cases h
  · next out hl =>
    injection h with h
    subst h
    refine ⟨List.getLast?_concat _, ?_, rfl⟩
    rw [List.countP_append]
    have h0 : out.events.countP isCompleteWrite = 0 :=
      List.countP_eq_zero.mpr fun e he => by
        simp [loopRun_no_complete frames 0 initState out hl e he]
    rw [h0]
    rfl

theorem claim_C8_witness :
    runMain exFrames2 = some exRun2 ∧
      (exRun2.events.getLast? = some (.wComplete true) ∧
        exRun2.events.countP isCompleteWrite = 1 ∧
        exRun2.finalState.processing_complete = true) :=
  ⟨by with_unfolding_all decide,
    claim_C8_completion_last exFrames2 exRun2 (by with_unfolding_all decide)⟩

/-- **C9.** At teardown the producer only detaches its mapping (`shmdt`,
line 161); it never issues the destroy call (`shmctl(IPC_RMID)`), so the
region outlives the producer and a consumer can keep reading it. -/
theorem claim_C9_detach_only (frames : List Frame) (r : RunResult)
    (h : runMain frames = some r) :
    ShmEvent.detach ∈ r.shm ∧ ShmEvent.remove ∉ r.shm ∧
      regionAlive r.shm = true := by
  unfold runMain at h
  split at h
  · cases h
  · next out hl =>
    injection h with h
    subst h
    refine ⟨?_, ?_, rfl⟩
    · show ShmEvent.detach ∈ [ShmEvent.create, ShmEvent.attach, ShmEvent.detach]
      decide
    · show ShmEvent.remove ∉ [ShmEvent.create, ShmEvent.attach, ShmEvent.detach]
      decide

theorem claim_C9_witness :
    runMain exFrames2 = some exRun2 ∧
      (ShmEvent.detach ∈ exRun2.shm ∧ ShmEvent.remove ∉ exRun2.shm ∧
        regionAlive exRun2.shm = true) :=
  ⟨by with_unfolding_all decide,
    claim_C9_detach_only exFrames2 exRun2 (by with_unfolding_all decide)⟩

/-- **C10.** A publish overwrites only the box entries at indices
`0 .. num_detections − 1`; every entry from `min(N, 50)` up keeps its
previous value (so it still holds an earlier frame's data), and the array
is zeroed only once, by the `memset` before the first frame. -/
theorem claim_C10_stale_suffix (st : DetectionData) (n : ℤ) (ds : List BBox)
    (j : ℕ) (v : BBox) (h : min ds.length CAPACITY ≤ j) :
    (publish st n ds).boxes.getD j v = st.boxes.getD j v ∧
      initState.boxes = List.replicate CAPACITY zeroBBox :=
  ⟨publish_boxes_getD_ge st n ds j v h, rfl⟩

theorem claim_C10_witness :
    min [exDetC].length CAPACITY ≤ 1 ∧
      ((publish exStA 2 [exDetC]).boxes.getD 1 default =
          exStA.boxes.getD 1 default ∧
        initState.boxes = List.replicate CAPACITY zeroBBox) ∧
      exStA.boxes.getD 1 default = exDetB :=
  ⟨by decide, claim_C10_stale_suffix exStA 2 [exDetC] 1 default (by decide),
    by with_unfolding_all decide⟩

/-- **C2 (amended).** A publish writes `num_detections = min(N, 50)` and
copies exactly the first `min(N, 50)` suppressor outputs — which are the
highest-confidence ones when the input is sorted descending. The source
has no `truncated` flag: struct `DetectionData` (lines 17–28) has no such
field, so truncation is not communicated to consumers (see the
counterexample). -/
theorem claim_C2_capacity (st : DetectionData) (n : ℤ) (ds : List BBox) :
    (publish st n ds).num_detections = (min ds.length CAPACITY : ℕ) ∧
      (∀ j v, j < min ds.length CAPACITY → j < st.boxes.length →
        (publish st n ds).boxes.getD j v = ds.getD j v) ∧
      (ds.Pairwise (fun a b => b.confidence ≤ a.confidence) →
        ∀ j k v, j < min ds.length CAPACITY → CAPACITY ≤ k → k < ds.length →
          (ds.getD k v).confidence ≤ (ds.getD j v).confidence) := by
  refine ⟨publish_num_detections st n ds,
    fun j v h1 h2 => publish_boxes_getD_lt st n ds j v h1 h2,
    fun hp j k v h1 h2 h3 => ?_⟩
  have hj : j < ds.length := lt_of_lt_of_le h1 (min_le_left _ _)
  have hjk : j < k :=
    lt_of_lt_of_le (lt_of_lt_of_le h1 (min_le_right _ _)) h2
  have hrel := List.pairwise_iff_getElem.mp hp j k hj h3 hjk
  rw [List.getD_eq_getElem ds v hj, List.getD_eq_getElem ds v h3]
  exact hrel

theorem claim_C2_witness :
    (publish initState 1 exDs51).num_detections = 50 ∧
      (publish initState 1 exDs51).boxes.getD 0 default =
        exDs51.getD 0 default ∧
      (exDs51.getD 50 default).confidence ≤
        (exDs51.getD 0 default).confidence := by
  have h := claim_C2_capacity initState 1 exDs51
  refine ⟨?_, ?_, ?_⟩
  · rw [h.1]; with_unfolding_all decide
  · exact h.2.1 0 default (by with_unfolding_all decide)
      (by with_unfolding_all decide)
  · exact h.2.2 (by with_unfolding_all decide) 0 50 default
      (by with_unfolding_all decide) (by decide)
      (by with_unfolding_all decide)

set_option maxRecDepth 40000 in
/-- **C2 (counterexample).** The claim says the record's `truncated` flag is
set when N > 50. No record field can carry that information: publishing 51
candidates and publishing only their top 50 produce byte-for-byte identical
records, though one run was truncated and the other was not — the struct
has no `truncated` field to distinguish them. -/
theorem claim_C2_counterexample :
    publish initState 1 exDs51 = publish initState 1 (exDs51.take CAPACITY) ∧
      50 < exDs51.length ∧ ¬ 50 < (exDs51.take CAPACITY).length := by
  refine ⟨?_, by with_unfolding_all decide, by with_unfolding_all decide⟩
  with_unfolding_all decide

/-- **C5.** Every detection the frame pipeline emits (and hence every
detection a publish places in the record) has confidence strictly above
`confThreshold` and stems from a row whose best class is the person class
(index 0). -/
theorem claim_C5_threshold_class (frameW frameH : ℤ) (confThr nmsThr : ℚ)
    (outs : List (List RawRow)) (b : BBox)
    (h : b ∈ detectFrame frameW frameH confThr nmsThr outs) :
    confThr < b.confidence ∧
      ∃ r ∈ outs.flatten, rowClass r = 0 ∧ confThr < rowConf r ∧
        b = detOfRow frameW frameH r := by
  rcases mem_detectFrame _ _ _ _ _ _ h with ⟨r, hr, h0, hc, rfl⟩
  exact ⟨hc, r, hr, h0, hc, rfl⟩

theorem claim_C5_witness :
    detOfRow 100 100 exRow ∈ detectFrame 100 100 (1/2) (2/5) exOuts ∧
      ((1 : ℚ)/2 < (detOfRow 100 100 exRow).confidence ∧
        ∃ r ∈ exOuts.flatten, rowClass r = 0 ∧ (1 : ℚ)/2 < rowConf r ∧
          detOfRow 100 100 exRow = detOfRow 100 100 r) :=
  ⟨by with_unfolding_all decide,
    claim_C5_threshold_class 100 100 (1/2) (2/5) exOuts _
      (by with_unfolding_all decide)⟩

/-- **C6 (counterexample).** The claim's formula in exact arithmetic fails:
on a 101×101 frame with all normalized outputs 1/2, the code publishes
`left = top = 25` (lines 114–119: `(int)` casts then integer `/2`), while
`centerX*frameWidth − width*frameWidth/2 = 50.5 − 25.25 = 25.25`. -/
theorem claim_C6_counterexample :
    detectFrame 101 101 (1/2) (2/5) [[exRow6]] =
      [(⟨25, 25, 50, 50, mkRat 9 10⟩ : BBox)] ∧
      ¬ ((25 : ℚ) = specLeft 101 exRow6) ∧
      ¬ ((25 : ℚ) = specTop 101 exRow6) := by
  with_unfolding_all decide

/-- **C6 (amended).** Every published rectangle satisfies the conversion
formula with the code's integer truncations: `left = trunc(centerX·W) −
trunc(width·W) tdiv 2` and `top = trunc(centerY·H) − trunc(height·H) tdiv 2`
(truncation toward zero at each `(int)` cast and C integer division by 2),
where W, H are the original frame dimensions. -/
theorem claim_C6_decode (frameW frameH : ℤ) (confThr nmsThr : ℚ)
    (outs : List (List RawRow)) (b : BBox)
    (h : b ∈ detectFrame frameW frameH confThr nmsThr outs) :
    ∃ r ∈ outs.flatten, rowClass r = 0 ∧ confThr < rowConf r ∧
      b.x = ((truncQ (r.c0 * (frameW : ℚ)) -
        Int.tdiv (truncQ (r.c2 * (frameW : ℚ))) 2 : ℤ) : ℚ) ∧
      b.y = ((truncQ (r.c1 * (frameH : ℚ)) -
        Int.tdiv (truncQ (r.c3 * (frameH : ℚ))) 2 : ℤ) : ℚ) ∧
      b.width = ((truncQ (r.c2 * (frameW : ℚ)) : ℤ) : ℚ) ∧
      b.height = ((truncQ (r.c3 * (frameH : ℚ)) : ℤ) : ℚ) := by
  rcases mem_detectFrame _ _ _ _ _ _ h with ⟨r, hr, h0, hc, rfl⟩
  exact ⟨r, hr, h0, hc, rfl, rfl, rfl, rfl⟩

theorem claim_C6_witness :
    detOfRow 100 100 exRow ∈ detectFrame 100 100 (1/2) (2/5) exOuts ∧
      ∃ r ∈ exOuts.flatten, rowClass r = 0 ∧ (1 : ℚ)/2 < rowConf r ∧
        (detOfRow 100 100 exRow).x = ((truncQ (r.c0 * ((100 : ℤ) : ℚ)) -
          Int.tdiv (truncQ (r.c2 * ((100 : ℤ) : ℚ))) 2 : ℤ) : ℚ) ∧
        (detOfRow 100 100 exRow).y = ((truncQ (r.c1 * ((100 : ℤ) : ℚ)) -
          Int.tdiv (truncQ (r.c3 * ((100 : ℤ) : ℚ))) 2 : ℤ) : ℚ) ∧
        (detOfRow 100 100 exRow).width =
          ((truncQ (r.c2 * ((100 : ℤ) : ℚ)) : ℤ) : ℚ) ∧
        (detOfRow 100 100 exRow).height =
          ((truncQ (r.c3 * ((100 : ℤ) : ℚ)) : ℤ) : ℚ) :=
  ⟨by with_unfolding_all decide,
    claim_C6_decode 100 100 (1/2) (2/5) exOuts _
      (by with_unfolding_all decide)⟩

/-- **C7.** The suppressor output is a subset of its input (each survivor
is an input candidate, at its original index, with score strictly above the
score threshold), no longer than the input, ordered by descending
confidence, any two survivors have IoU ≤ the threshold (in both
orientations — IoU is symmetric), and equal-confidence survivors keep
their original candidate order (the sort is stable, so the function is
deterministic given the input ordering). -/
theorem claim_C7_suppressor (cands : List (Rect × ℚ)) (s t : ℚ) :
    (nmsEntries s t (enumFromIdx 0 cands)).length ≤ cands.length ∧
      (∀ e ∈ nmsEntries s t (enumFromIdx 0 cands),
        e.1 < cands.length ∧ cands.getD e.1 defaultCand = e.2 ∧
          e.2 ∈ cands ∧ s < e.2.2) ∧
      (nmsEntries s t (enumFromIdx 0 cands)).Pairwise confGe ∧
      (nmsEntries s t (enumFromIdx 0 cands)).Pairwise
        (fun a b => iou a.2.1 b.2.1 ≤ t ∧ iou b.2.1 a.2.1 ≤ t) ∧
      (nmsEntries s t (enumFromIdx 0 cands)).Pairwise tieOrder := by
  refine ⟨?_, ?_, nmsEntries_sorted_desc s t _, ?_, ?_⟩
  · exact le_trans (nmsEntries_length_le s t _)
      (le_of_eq (enumFromIdx_length 0 cands))
  · intro e he
    have hm := nmsEntries_mem _ _ _ _ he
    rcases mem_enumFromIdx 0 _ _ hm with ⟨-, h2, h3, h4⟩
    rw [Nat.sub_zero] at h2 h3
    exact ⟨h2, h3, h4, nmsEntries_conf_gt _ _ _ _ he⟩
  · exact (nmsEntries_pairwise_iou s t _).imp fun h => ⟨h, by rwa [iou_comm]⟩
  · exact nmsEntries_tie_order s t _
      ((enumFromIdx_pairwise_idx 0 cands).imp fun {a b} h =>
        (fun _ => h : tieOrder a b))

theorem claim_C7_witness :
    ((2, (⟨100, 100, 10, 10⟩ : Rect), mkRat 7 10) ∈
        nmsEntries (1/2) (2/5) (enumFromIdx 0 exCands)) ∧
      ((2 : ℕ) < exCands.length ∧
        exCands.getD 2 defaultCand = ((⟨100, 100, 10, 10⟩ : Rect), mkRat 7 10) ∧
        ((⟨100, 100, 10, 10⟩ : Rect), mkRat 7 10) ∈ exCands ∧
        (1 : ℚ)/2 < mkRat 7 10) :=
  ⟨by with_unfolding_all decide,
    (claim_C7_suppressor exCands (1/2) (2/5)).2.1
      (2, (⟨100, 100, 10, 10⟩ : Rect), mkRat 7 10)
      (by with_unfolding_all decide)⟩

end Detector
